import Mathlib

/-!
# A verified shallow embedding of the `QueryScorer` module

The `QueryScorer` class scores a query string against a corpus of
"documents", each a small set of keywords.  This file embeds that class in
Lean and proves the properties its specification states.

Modelling conventions:

* JavaScript strings are Lean `String`s; `toLocaleLowerCase` is modelled
  per-character by `Char.toLower` (ASCII case folding).
* JavaScript numbers that can be `Infinity` (distances, scores) are modelled
  by the two-constructor type `EDist`; the arithmetic the scorer performs on
  them (`Math.min`, `+`, the sort comparator) is total on `EDist` and agrees
  with IEEE arithmetic on the values that actually arise (non-negative
  integers and `Infinity`).
* JavaScript `Set`s and `Map`s are modelled by lists keyed up to equality;
  only membership and iteration-insensitive folds (minimum, sum) are taken
  from them, which is exactly how the scorer uses its maps.  Documents are
  compared by value rather than by object reference; two structurally equal
  documents receive identical scores, so the collapse is unobservable in
  `score`'s output.
* The in-place mutation performed by `addDocument` (it rewrites `doc.words`)
  is modelled by returning the updated document next to the updated scorer
  state.
-/

namespace QS

/-- A JavaScript number as used by the scorer: a non-negative integer edit
distance, or the `Infinity` sentinel meaning "no match". -/
inductive EDist where
  | fin : Nat → EDist
  | inf : EDist
deriving DecidableEq, Repr

namespace EDist

/-- Addition of scores; `Infinity` absorbs, as in IEEE arithmetic. -/
def add : EDist → EDist → EDist
  | .inf, _ => .inf
  | _, .inf => .inf
  | .fin a, .fin b => .fin (a + b)

/-- The `Math.min` of two scores. -/
def minD : EDist → EDist → EDist
  | .inf, b => b
  | a, .inf => a
  | .fin a, .fin b => .fin (Nat.min a b)

/-- Comparison used to model the sort comparator `(a, b) => a.score - b.score`
(with the engine's stable treatment of equal and incomparable pairs). -/
def le : EDist → EDist → Bool
  | .fin a, .fin b => a ≤ b
  | _, .inf => true
  | .inf, .fin _ => false

end EDist

/-- Lowercasing a string, the model of `String.prototype.toLocaleLowerCase`. -/
def lowerStr (s : String) : String := ⟨s.data.map Char.toLower⟩

/-- The prefix `word.substring(0, i)`: the first `i` characters. -/
def strTake (s : String) (i : Nat) : String := ⟨s.data.take i⟩

/-- All prefixes of `w` of length `1` up to and including `w.length`, in the
order the indexing loops produce them. -/
def prefixesOf (w : String) : List String :=
  (List.range w.data.length).map (fun i => strTake w (i + 1))

/-- A document: an id and its keyword list (the `words` field). -/
structure Document where
  id : String
  words : List String
deriving DecidableEq, Repr

/-- The state of a `QueryScorer` instance.  The two index maps
(`_documentsByWord`, `_documentsByPrefix`) are recovered as derived views of
`documents` below; the class only ever reads them through membership and
order-insensitive folds, so no information is lost. -/
structure Scorer where
  distanceThreshold : Nat
  stopWords : List String
  stopWordPrefixes : List String
  documents : List Document
deriving DecidableEq, Repr

/-- The constructor: records the threshold and runs the `stopWords` setter,
which lowercases the stop words and precomputes every prefix (lengths `1` to
full) of every stop word. -/
def mkScorer (distanceThreshold : Nat) (stopWords : List String) : Scorer :=
  let sw := stopWords.map lowerStr
  { distanceThreshold := distanceThreshold
    stopWords := sw
    stopWordPrefixes := (sw.map prefixesOf).flatten
    documents := [] }

/-- Normalization applied by `addDocument`: every keyword is lowercased. -/
def normDoc (doc : Document) : Document :=
  { doc with words := doc.words.map lowerStr }

/-- The `addDocument` method.  It registers the document and rewrites the
caller's `doc.words` in place with the lowercased words; the mutated document
object is returned next to the new scorer state. -/
def addDocument (s : Scorer) (doc : Document) : Scorer × Document :=
  let doc' := normDoc doc
  ({ s with documents := s.documents ++ [doc'] }, doc')

/-- Adding a document, keeping only the scorer state. -/
def addDoc (s : Scorer) (doc : Document) : Scorer := (addDocument s doc).1

/-- A scorer built by constructing it and adding each document in turn. -/
def buildScorer (t : Nat) (sw : List String) (docs : List Document) : Scorer :=
  docs.foldl addDoc (mkScorer t sw)

/-- The key set of the `_documentsByWord` map: every word of every document
(each key once, as in a `Map`). -/
def exactKeys (s : Scorer) : List String :=
  ((s.documents.map Document.words).flatten).dedup

/-- The key set of the `_documentsByPrefix` map: every prefix of every word
of every document. -/
def prefixKeys (s : Scorer) : List String :=
  (((s.documents.map Document.words).flatten).map prefixesOf).flatten.dedup

/-- Membership of document `d` in the `_documentsByWord` bucket of key `k`. -/
def inBucketExact (k : String) (d : Document) : Bool :=
  d.words.contains k

/-- Membership of document `d` in the `_documentsByPrefix` bucket of `k`. -/
def inBucketPrefix (k : String) (d : Document) : Bool :=
  ((d.words.map prefixesOf).flatten).contains k

/-- The keys of the index map selected for a query word (the word map at
position `0`, the prefix map later) whose bucket contains `d`; these are the
keys whose distances feed `d`'s per-word minimum. -/
def bucketKeys (s : Scorer) (first : Bool) (d : Document) : List String :=
  if first then (exactKeys s).filter (fun k => inBucketExact k d)
  else (prefixKeys s).filter (fun k => inBucketPrefix k d)

/- ---------------------------------------------------------------------- -/
/- The Levenshtein routine `_levenshtein`, rolling rows as in the source.  -/
/- ---------------------------------------------------------------------- -/

/-- The inner loop of `_levenshtein`: given the character `ch` of `word1`
being processed, the remaining characters of `word2`, the remaining previous
row values, and the value just written to the next row, produce the rest of
the next row. -/
def levRowAux (ci cr cd : Nat) (ch : Char) :
    List Char → List Nat → Nat → List Nat
  | c2 :: w2, p0 :: p1 :: ps, left =>
      let v := Nat.min (Nat.min (p0 + (if ch = c2 then 0 else cr)) (p1 + cd))
        (left + ci)
      v :: levRowAux ci cr cd ch w2 (p1 :: ps) v
  | _, _, _ => []

/-- One iteration of the outer loop of `_levenshtein`: compute the next row
from the previous one (`p2[0] = p1[0] + costDel`, then the inner loop). -/
def levRow (ci cr cd : Nat) (ch : Char) (w2 : List Char) (prev : List Nat) :
    List Nat :=
  match prev with
  | [] => []
  | p0 :: _ => (p0 + cd) :: levRowAux ci cr cd ch w2 prev (p0 + cd)

/-- The outer loop of `_levenshtein` over the characters of `word1`. -/
def levLoop (ci cr cd : Nat) : List Char → List Char → List Nat → List Nat
  | [], _, row => row
  | ch :: w1, w2, row => levLoop ci cr cd w1 w2 (levRow ci cr cd ch w2 row)

/-- The `_levenshtein` method: short-circuits for identical strings and for
an empty argument, then the two-row dynamic program; the result is `p1[l2]`
of the final row. -/
def levenshtein (word1 word2 : String) (costIns costRep costDel : Nat) :
    Nat :=
  if word1 = word2 then 0
  else if word1.data.length = 0 then word2.data.length * costIns
  else if word2.data.length = 0 then word1.data.length * costDel
  else
    let row0 := (List.range (word2.data.length + 1)).map (· * costIns)
    (levLoop costIns costRep costDel word1.data word2.data row0).getD
      word2.data.length 0

/- ---------------------------------------------------------------------- -/
/- The `score` method.                                                     -/
/- ---------------------------------------------------------------------- -/

/-- The model of `searchString.trim()`. -/
def trimChars (cs : List Char) : List Char :=
  ((cs.dropWhile Char.isWhitespace).reverse.dropWhile Char.isWhitespace).reverse

/-- One character of the whitespace split: a whitespace character closes the
current word, any other character extends it. -/
def splitStep (c : Char) (acc : List (List Char)) : List (List Char) :=
  if c.isWhitespace then [] :: acc
  else
    match acc with
    | [] => [[c]]
    | w :: ws => (c :: w) :: ws

/-- Splitting a trimmed string on runs of whitespace (the non-degenerate
behaviour of `.split(/\s+/)`). -/
def splitWs (cs : List Char) : List (List Char) :=
  (cs.foldr splitStep []).filter (fun w => w ≠ [])

/-- The query words: trim, split on whitespace runs, lowercase each word.
As in JavaScript, splitting an empty (all-whitespace) input yields a single
empty word. -/
def searchWords (q : String) : List String :=
  let t := trimChars q.data
  let parts := if t = [] then [[]] else splitWs t
  parts.map (fun cs => lowerStr ⟨cs⟩)

/-- The stop-word test of the scoring loop: the word at position `0` is
tested against the stop words exactly, later words against the stop-word
prefixes. -/
def skipWord (s : Scorer) (i : Nat) (w : String) : Bool :=
  if i = 0 then s.stopWords.contains w else s.stopWordPrefixes.contains w

/-- The capped distance for one index key: edit distances above the threshold
become `Infinity`. -/
def keyDist (s : Scorer) (w k : String) : EDist :=
  let d := levenshtein w k 1 1 1
  if s.distanceThreshold < d then .inf else .fin d

/-- Folding `Math.min` over a list of distances, starting from `Infinity`. -/
def minOver (ds : List EDist) : EDist := ds.foldr EDist.minD .inf

/-- The entry of `minDistanceByDoc` for document `d` after one query word:
`none` when no bucket containing `d` was visited (the document is absent
from the map), otherwise the minimum capped distance over the keys that
reach `d`. -/
def minDistFor (s : Scorer) (first : Bool) (w : String) (d : Document) :
    Option EDist :=
  match bucketKeys s first d with
  | [] => none
  | ks => some (minOver (ks.map (keyDist s w)))

/-- Processing one query word: a skipped word leaves the running sums
untouched; otherwise each document present in `minDistanceByDoc` receives
`min + (sumByDoc.get(doc) || 0)`. -/
def stepSums (s : Scorer) (i : Nat) (w : String)
    (sums : Document → Option EDist) : Document → Option EDist :=
  if skipWord s i w then sums
  else fun d =>
    match minDistFor s (i == 0) w d with
    | none => sums d
    | some m => some (m.add ((sums d).getD (.fin 0)))

/-- The `sumByDoc` map after the whole word loop. -/
def finalSums (s : Scorer) (q : String) : Document → Option EDist :=
  ((searchWords q).enum).foldl (fun sums iw => stepSums s iw.1 iw.2 sums)
    (fun _ => none)

/-- The unsorted result array: one entry per registered document, with its
summed score, or `Infinity` when no sum was recorded. -/
def rawResults (s : Scorer) (q : String) : List (Document × EDist) :=
  s.documents.map (fun d => (d, (finalSums s q d).getD .inf))

/-- Stable insertion of `a` into a sorted list: `a` is placed before the
first element it compares less-or-equal to, hence before later equal
elements. -/
def insertLe (le : α → α → Bool) (a : α) : List α → List α
  | [] => [a]
  | b :: l => if le a b then a :: b :: l else b :: insertLe le a l

/-- Stable sort by a boolean comparison.  `Array.prototype.sort` is required
to be stable, and a stable sort agreeing with a total preorder is unique, so
this is extensionally the engine's sort on the comparator
`(a, b) => a.score - b.score` over the values that occur (non-negative
integers and `Infinity`). -/
def sortLe (le : α → α → Bool) : List α → List α
  | [] => []
  | a :: l => insertLe le a (sortLe le l)

/-- The `score` method: the raw results sorted ascending by score. -/
def score (s : Scorer) (q : String) : List (Document × EDist) :=
  sortLe (fun a b => EDist.le a.2 b.2) (rawResults s q)

/- ---------------------------------------------------------------------- -/
/- Reference definitions used to state and prove the distance properties.  -/
/- ---------------------------------------------------------------------- -/

/-- Textbook Levenshtein distance with unit costs, by recursion on both
strings; the rolling-row program is proved equivalent to it below. -/
def levRec : List Char → List Char → Nat
  | [], ys => ys.length
  | xs, [] => xs.length
  | x :: xs, y :: ys =>
      Nat.min (Nat.min (levRec xs ys + (if x = y then 0 else 1))
        (levRec xs (y :: ys) + 1))
      (levRec (x :: xs) ys + 1)
termination_by xs ys => xs.length + ys.length

/-- The tail of the dynamic-programming row for processed prefix `P` (stored
reversed): walking the remaining characters of `word2`, with `acc` the
reversed prefix of `word2` consumed so far. -/
def rowFrom (P acc : List Char) : List Char → List Nat
  | [] => []
  | c :: rest => levRec P (c :: acc) :: rowFrom P (c :: acc) rest

/-- The full dynamic-programming row for processed (reversed) prefix `P` of
`word1`: entry `j` is the distance between that prefix and the first `j`
characters of `word2`. -/
def fullRow (P w2 : List Char) : List Nat :=
  levRec P [] :: rowFrom P [] w2

/- ---------------------------------------------------------------------- -/
/- The scorer as called from JavaScript.                                   -/
/- ---------------------------------------------------------------------- -/

/-- A JavaScript value passed as the `searchString` argument. -/
inductive JSVal where
  | str : String → JSVal
  | null : JSVal
  | undef : JSVal
  | num : Int → JSVal
deriving DecidableEq, Repr

/-- The error raised on a caller contract violation: `searchString.trim` is
not callable on a non-string, so the call fails fast with a `TypeError`
(the host's invalid-argument error) instead of coercing. -/
inductive JSError where
  | invalidArgument : JSError
deriving DecidableEq, Repr

/-- The `score` method under JavaScript calling conventions: a string
argument is scored, any other value makes the very first step
(`searchString.trim()`) raise. -/
def scoreJS (s : Scorer) (v : JSVal) : Except JSError (List (Document × EDist)) :=
  match v with
  | .str q => .ok (score s q)
  | _ => .error .invalidArgument

/-- The operations of the scorer's public interface. -/
inductive Op where
  | add : Document → Op
  | query : String → Op

/-- One interface call: `addDocument` updates the state and returns nothing;
`score` returns a ranking and leaves the state as it was. -/
def step (s : Scorer) : Op → Scorer × Option (List (Document × EDist))
  | .add d => ((addDocument s d).1, none)
  | .query q => (s, some (score s q))

/- ---------------------------------------------------------------------- -/
/- Order lemmas for scores.                                                -/
/- ---------------------------------------------------------------------- -/

theorem EDist.le_refl (a : EDist) : EDist.le a a = true := by
  cases a <;> simp [EDist.le]

theorem EDist.le_trans {a b c : EDist} (h1 : EDist.le a b = true)
    (h2 : EDist.le b c = true) : EDist.le a c = true := by
  cases a <;> cases b <;> cases c <;> simp_all [EDist.le] <;> omega

theorem EDist.le_total (a b : EDist) :
    EDist.le a b = true ∨ EDist.le b a = true := by
  cases a <;> cases b <;> simp [EDist.le] <;> omega

theorem EDist.le_antisymm {a b : EDist} (h1 : EDist.le a b = true)
    (h2 : EDist.le b a = true) : a = b := by
  cases a <;> cases b <;> simp_all [EDist.le] <;> omega

theorem EDist.inf_le_iff {b : EDist} :
    EDist.le EDist.inf b = true ↔ b = EDist.inf := by
  cases b <;> simp [EDist.le]

theorem EDist.le_fin_zero {a : EDist} (h : EDist.le a (EDist.fin 0) = true) :
    a = EDist.fin 0 := by
  cases a <;> simp_all [EDist.le]

theorem EDist.minD_le_left (a b : EDist) :
    EDist.le (EDist.minD a b) a = true := by
  cases a <;> cases b <;> simp [EDist.minD, EDist.le] <;> omega

theorem EDist.minD_le_right (a b : EDist) :
    EDist.le (EDist.minD a b) b = true := by
  cases a <;> cases b <;> simp [EDist.minD, EDist.le] <;> omega

theorem EDist.minD_eq_or (a b : EDist) :
    EDist.minD a b = a ∨ EDist.minD a b = b := by
  cases a <;> cases b <;> simp [EDist.minD] <;> omega

theorem minOver_cons (d : EDist) (ds : List EDist) :
    minOver (d :: ds) = EDist.minD d (minOver ds) := rfl

theorem minOver_le_mem {ds : List EDist} {x : EDist} (hx : x ∈ ds) :
    EDist.le (minOver ds) x = true := by
  induction ds with
  | nil => cases hx
  | cons d ds ih =>
    rw [minOver_cons]
    rcases List.mem_cons.mp hx with rfl | hx
    · exact EDist.minD_le_left _ _
    · exact EDist.le_trans (EDist.minD_le_right _ _) (ih hx)

theorem minOver_mem_or_inf (ds : List EDist) :
    minOver ds = EDist.inf ∨ minOver ds ∈ ds := by
  induction ds with
  | nil => exact Or.inl rfl
  | cons d ds ih =>
    rw [minOver_cons]
    rcases EDist.minD_eq_or d (minOver ds) with h | h
    · rw [h]
      exact Or.inr (List.mem_cons_self d ds)
    · rw [h]
      rcases ih with h' | h'
      · exact Or.inl h'
      · exact Or.inr (List.mem_cons_of_mem d h')

theorem minOver_of_all_inf {ds : List EDist}
    (h : ∀ x ∈ ds, x = EDist.inf) : minOver ds = EDist.inf := by
  induction ds with
  | nil => rfl
  | cons d ds ih =>
    rw [minOver_cons, h d (List.mem_cons_self d ds),
      ih (fun x hx => h x (List.mem_cons_of_mem d hx))]
    rfl

theorem minOver_congr_mem {l1 l2 : List EDist}
    (h1 : ∀ x ∈ l1, x ∈ l2) (h2 : ∀ x ∈ l2, x ∈ l1) :
    minOver l1 = minOver l2 := by
  rcases minOver_mem_or_inf l1 with hm1 | hm1
  · have : ∀ x ∈ l2, x = EDist.inf := by
      intro x hx
      have := minOver_le_mem (h2 x hx)
      rw [hm1] at this
      exact EDist.inf_le_iff.mp this
    rw [hm1, minOver_of_all_inf this]
  · rcases minOver_mem_or_inf l2 with hm2 | hm2
    · have : ∀ x ∈ l1, x = EDist.inf := by
        intro x hx
        have := minOver_le_mem (h1 x hx)
        rw [hm2] at this
        exact EDist.inf_le_iff.mp this
      rw [hm2, minOver_of_all_inf this]
    · exact EDist.le_antisymm (minOver_le_mem (h2 _ hm2))
        (minOver_le_mem (h1 _ hm1))

/- ---------------------------------------------------------------------- -/
/- The stable sort.                                                        -/
/- ---------------------------------------------------------------------- -/

theorem insertLe_perm (le : α → α → Bool) (a : α) (l : List α) :
    List.Perm (insertLe le a l) (a :: l) := by
  induction l with
  | nil => exact List.Perm.refl _
  | cons b l ih =>
    by_cases h : le a b = true
    · simp [insertLe, h]
    · simp only [insertLe, h, if_false]
      exact (ih.cons b).trans (List.Perm.swap a b l)

theorem sortLe_perm (le : α → α → Bool) (l : List α) : List.Perm (sortLe le l) l := by
  induction l with
  | nil => exact List.Perm.refl _
  | cons a l ih => exact (insertLe_perm le a (sortLe le l)).trans (ih.cons a)

theorem insertLe_pairwise {le : α → α → Bool}
    (htrans : ∀ a b c, le a b = true → le b c = true → le a c = true)
    (htotal : ∀ a b, le a b = true ∨ le b a = true)
    {l : List α} (a : α) (hl : l.Pairwise (fun x y => le x y = true)) :
    (insertLe le a l).Pairwise (fun x y => le x y = true) := by
  induction l with
  | nil => simp [insertLe]
  | cons b l ih =>
    rcases List.pairwise_cons.mp hl with ⟨hb, hl'⟩
    by_cases h : le a b = true
    · rw [insertLe, if_pos h]
      refine List.pairwise_cons.mpr ⟨?_, hl⟩
      intro x hx
      rcases List.mem_cons.mp hx with rfl | hx
      · exact h
      · exact htrans a b x h (hb x hx)
    · rw [insertLe, if_neg h]
      refine List.pairwise_cons.mpr ⟨?_, ih hl'⟩
      intro x hx
      rcases List.mem_cons.mp ((insertLe_perm le a l).mem_iff.mp hx)
        with rfl | hx'
      · rcases htotal x b with h' | h'
        · exact absurd h' h
        · exact h'
      · exact hb x hx'

theorem sortLe_pairwise {le : α → α → Bool}
    (htrans : ∀ a b c, le a b = true → le b c = true → le a c = true)
    (htotal : ∀ a b, le a b = true ∨ le b a = true) (l : List α) :
    (sortLe le l).Pairwise (fun x y => le x y = true) := by
  induction l with
  | nil => simp [sortLe]
  | cons a l ih => exact insertLe_pairwise htrans htotal a ih

/- ---------------------------------------------------------------------- -/
/- Structure of built scorers.                                             -/
/- ---------------------------------------------------------------------- -/

theorem foldl_addDoc_documents (docs : List Document) (s : Scorer) :
    (docs.foldl addDoc s).documents = s.documents ++ docs.map normDoc := by
  induction docs generalizing s with
  | nil => simp
  | cons d docs ih =>
    simp [List.foldl_cons, ih, addDoc, addDocument, List.append_assoc]

theorem foldl_addDoc_stopWords (docs : List Document) (s : Scorer) :
    (docs.foldl addDoc s).stopWords = s.stopWords := by
  induction docs generalizing s with
  | nil => rfl
  | cons d docs ih => simp [List.foldl_cons, ih, addDoc, addDocument]

theorem foldl_addDoc_stopWordPrefixes (docs : List Document) (s : Scorer) :
    (docs.foldl addDoc s).stopWordPrefixes = s.stopWordPrefixes := by
  induction docs generalizing s with
  | nil => rfl
  | cons d docs ih => simp [List.foldl_cons, ih, addDoc, addDocument]

theorem foldl_addDoc_distanceThreshold (docs : List Document) (s : Scorer) :
    (docs.foldl addDoc s).distanceThreshold = s.distanceThreshold := by
  induction docs generalizing s with
  | nil => rfl
  | cons d docs ih => simp [List.foldl_cons, ih, addDoc, addDocument]

theorem buildScorer_documents (t : Nat) (sw : List String)
    (docs : List Document) :
    (buildScorer t sw docs).documents = docs.map normDoc := by
  simp [buildScorer, foldl_addDoc_documents, mkScorer]

theorem buildScorer_stopWords (t : Nat) (sw : List String)
    (docs : List Document) :
    (buildScorer t sw docs).stopWords = sw.map lowerStr := by
  simp [buildScorer, foldl_addDoc_stopWords, mkScorer]

theorem buildScorer_stopWordPrefixes (t : Nat) (sw : List String)
    (docs : List Document) :
    (buildScorer t sw docs).stopWordPrefixes
      = ((sw.map lowerStr).map prefixesOf).flatten := by
  simp [buildScorer, foldl_addDoc_stopWordPrefixes, mkScorer]

theorem buildScorer_distanceThreshold (t : Nat) (sw : List String)
    (docs : List Document) :
    (buildScorer t sw docs).distanceThreshold = t := by
  simp [buildScorer, foldl_addDoc_distanceThreshold, mkScorer]

/- ---------------------------------------------------------------------- -/
/- Membership in the derived index key sets.                               -/
/- ---------------------------------------------------------------------- -/

theorem mem_prefixesOf {k w : String} :
    k ∈ prefixesOf w ↔ ∃ i, 1 ≤ i ∧ i ≤ w.length ∧ k = strTake w i := by
  simp only [prefixesOf, List.mem_map, List.mem_range, String.length]
  constructor
  · rintro ⟨i, hi, rfl⟩
    exact ⟨i + 1, by omega, by omega, rfl⟩
  · rintro ⟨i, h1, h2, rfl⟩
    refine ⟨i - 1, by omega, ?_⟩
    congr 1
    omega

theorem mem_exactKeys {s : Scorer} {k : String} :
    k ∈ exactKeys s ↔ ∃ d ∈ s.documents, k ∈ d.words := by
  simp only [exactKeys, List.mem_dedup, List.mem_flatten, List.mem_map]
  constructor
  · rintro ⟨ws, ⟨d, hd, rfl⟩, hk⟩
    exact ⟨d, hd, hk⟩
  · rintro ⟨d, hd, hk⟩
    exact ⟨d.words, ⟨d, hd, rfl⟩, hk⟩

theorem mem_prefixKeys {s : Scorer} {k : String} :
    k ∈ prefixKeys s ↔ ∃ d ∈ s.documents, ∃ w ∈ d.words, k ∈ prefixesOf w := by
  simp only [prefixKeys, List.mem_dedup, List.mem_flatten, List.mem_map]
  constructor
  · rintro ⟨ps, ⟨w, ⟨ws, ⟨d, hd, rfl⟩, hw'⟩, rfl⟩, hk⟩
    exact ⟨d, hd, w, hw', hk⟩
  · rintro ⟨d, hd, w, hw, hk⟩
    exact ⟨prefixesOf w, ⟨w, ⟨d.words, ⟨d, hd, rfl⟩, hw⟩, rfl⟩, hk⟩

theorem mem_bucketKeys_first {s : Scorer} {d : Document} {k : String} :
    k ∈ bucketKeys s true d ↔ k ∈ exactKeys s ∧ k ∈ d.words := by
  simp [bucketKeys, List.mem_filter, inBucketExact]

theorem mem_bucketKeys_later {s : Scorer} {d : Document} {k : String} :
    k ∈ bucketKeys s false d
      ↔ k ∈ prefixKeys s ∧ ∃ w ∈ d.words, k ∈ prefixesOf w := by
  simp [bucketKeys, List.mem_filter, inBucketPrefix]

/- ---------------------------------------------------------------------- -/
/- The per-document minimum in terms of the document's own keys.           -/
/- ---------------------------------------------------------------------- -/

theorem minDistFor_first_eq {s : Scorer} {d : Document}
    (hd : d ∈ s.documents) (hw : d.words ≠ []) (w : String) :
    minDistFor s true w d = some (minOver (d.words.map (keyDist s w))) := by
  have hmem : ∀ k, k ∈ bucketKeys s true d ↔ k ∈ d.words := by
    intro k
    rw [mem_bucketKeys_first]
    constructor
    · exact And.right
    · intro hk
      exact ⟨mem_exactKeys.mpr ⟨d, hd, hk⟩, hk⟩
  have hne : bucketKeys s true d ≠ [] := by
    rcases List.exists_mem_of_ne_nil _ hw with ⟨k, hk⟩
    exact List.ne_nil_of_mem ((hmem k).mpr hk)
  have hcongr : minOver ((bucketKeys s true d).map (keyDist s w))
      = minOver (d.words.map (keyDist s w)) := by
    apply minOver_congr_mem
    · intro x hx
      rcases List.mem_map.mp hx with ⟨k, hk, rfl⟩
      exact List.mem_map.mpr ⟨k, (hmem k).mp hk, rfl⟩
    · intro x hx
      rcases List.mem_map.mp hx with ⟨k, hk, rfl⟩
      exact List.mem_map.mpr ⟨k, (hmem k).mpr hk, rfl⟩
  rw [minDistFor]
  rcases h : bucketKeys s true d with _ | ⟨k, ks⟩
  · exact absurd h hne
  · rw [← h, ← hcongr]
    rw [h]

/- ---------------------------------------------------------------------- -/
/- Lowercasing is idempotent.                                              -/
/- ---------------------------------------------------------------------- -/

theorem char_toNat_ofNat_of_lt {n : Nat} (h : n < 55296) :
    (Char.ofNat n).toNat = n := by
  have hv : n.isValidChar := Or.inl h
  rw [Char.ofNat, dif_pos hv]
  rfl

theorem toLower_toLower (c : Char) : c.toLower.toLower = c.toLower := by
  by_cases h : c.toNat ≥ 65 ∧ c.toNat ≤ 90
  · have hc : c.toLower = Char.ofNat (c.toNat + 32) := by
      rw [Char.toLower, if_pos h]
    have h32 : (Char.ofNat (c.toNat + 32)).toNat = c.toNat + 32 :=
      char_toNat_ofNat_of_lt (by omega)
    rw [hc, Char.toLower, h32, if_neg (by omega)]
  · have hc : c.toLower = c := by rw [Char.toLower, if_neg h]
    rw [hc, hc]

theorem lowerStr_lowerStr (s : String) : lowerStr (lowerStr s) = lowerStr s := by
  apply String.ext
  simp only [lowerStr, List.map_map]
  exact List.map_congr_left (fun c _ => toLower_toLower c)

/- ---------------------------------------------------------------------- -/
/- Trimming and splitting whitespace-free queries.                         -/
/- ---------------------------------------------------------------------- -/

theorem dropWhile_eq_self_of_none {p : Char → Bool} {cs : List Char}
    (h : ∀ c ∈ cs, p c = false) : cs.dropWhile p = cs := by
  cases cs with
  | nil => rfl
  | cons c cs =>
    rw [List.dropWhile_cons, h c (List.mem_cons_self c cs)]
    simp

theorem trimChars_eq_self {cs : List Char}
    (h : ∀ c ∈ cs, c.isWhitespace = false) : trimChars cs = cs := by
  rw [trimChars, dropWhile_eq_self_of_none h, dropWhile_eq_self_of_none
    (fun c hc => h c (List.mem_reverse.mp hc)), List.reverse_reverse]

theorem foldr_splitStep_single {cs : List Char}
    (h : ∀ c ∈ cs, c.isWhitespace = false) (hne : cs ≠ []) :
    cs.foldr splitStep [] = [cs] := by
  induction cs with
  | nil => exact absurd rfl hne
  | cons c cs ih =>
    rw [List.foldr_cons]
    by_cases hcs : cs = []
    · subst hcs
      simp [splitStep, h c (List.mem_cons_self c [])]
    · rw [ih (fun x hx => h x (List.mem_cons_of_mem c hx)) hcs]
      simp [splitStep, h c (List.mem_cons_self c cs)]

theorem splitWs_single {cs : List Char}
    (h : ∀ c ∈ cs, c.isWhitespace = false) (hne : cs ≠ []) :
    splitWs cs = [cs] := by
  rw [splitWs, foldr_splitStep_single h hne]
  simp [hne]

theorem searchWords_eq_single {k : String}
    (h : ∀ c ∈ k.data, c.isWhitespace = false) :
    searchWords k = [lowerStr k] := by
  by_cases hne : k.data = []
  · rw [searchWords]
    simp only [trimChars_eq_self h, if_pos hne, List.map_cons, List.map_nil]
    rw [show (⟨[]⟩ : String) = k from String.ext hne.symm]
  · rw [searchWords]
    simp only [trimChars_eq_self h, if_neg hne, splitWs_single h hne,
      List.map_cons, List.map_nil]

/- ---------------------------------------------------------------------- -/
/- The rolling-row program computes the textbook Levenshtein distance.     -/
/- ---------------------------------------------------------------------- -/

theorem levRec_nil_left (ys : List Char) : levRec [] ys = ys.length := by
  simp [levRec]

theorem levRec_nil_right (xs : List Char) : levRec xs [] = xs.length := by
  cases xs <;> simp [levRec]

theorem levRec_self (l : List Char) : levRec l l = 0 := by
  induction l with
  | nil => simp [levRec]
  | cons c l ih =>
    rw [levRec, ih]
    simp

theorem nat_min_rot (x y z : Nat) :
    Nat.min (Nat.min x y) z = Nat.min (Nat.min x z) y := by
  show min (min x y) z = min (min x z) y
  rw [min_assoc, min_assoc, min_comm y z]

theorem levRec_comm (x y : List Char) : levRec x y = levRec y x := by
  cases x with
  | nil => rw [levRec_nil_left, levRec_nil_right]
  | cons a xs =>
    cases y with
    | nil => rw [levRec_nil_left, levRec_nil_right]
    | cons b ys =>
      have h1 := levRec_comm xs ys
      have h2 := levRec_comm xs (b :: ys)
      have h3 := levRec_comm (a :: xs) ys
      have hs : (if a = b then 0 else 1) = (if b = a then 0 else 1) := by
        by_cases hab : a = b
        · simp [hab]
        · simp [hab, Ne.symm hab]
      rw [levRec, levRec, h1, h2, h3, hs, nat_min_rot]
termination_by x.length + y.length

theorem levRowAux_spec (ch : Char) (P : List Char) (rest : List Char) :
    ∀ acc, levRowAux 1 1 1 ch rest (levRec P acc :: rowFrom P acc rest)
      (levRec (ch :: P) acc) = rowFrom (ch :: P) acc rest := by
  induction rest with
  | nil => intro acc; rfl
  | cons c rest ih =>
    intro acc
    have hv : levRec (ch :: P) (c :: acc)
        = Nat.min (Nat.min (levRec P acc + (if ch = c then 0 else 1))
          (levRec P (c :: acc) + 1)) (levRec (ch :: P) acc + 1) := by
      rw [levRec]
    show (Nat.min (Nat.min (levRec P acc + (if ch = c then 0 else 1))
        (levRec P (c :: acc) + 1)) (levRec (ch :: P) acc + 1))
      :: levRowAux 1 1 1 ch rest
        (levRec P (c :: acc) :: rowFrom P (c :: acc) rest)
        (Nat.min (Nat.min (levRec P acc + (if ch = c then 0 else 1))
          (levRec P (c :: acc) + 1)) (levRec (ch :: P) acc + 1))
      = rowFrom (ch :: P) acc (c :: rest)
    rw [← hv, ih (c :: acc), rowFrom]

theorem levRow_spec (ch : Char) (P w2 : List Char) :
    levRow 1 1 1 ch w2 (fullRow P w2) = fullRow (ch :: P) w2 := by
  have hl : levRec (ch :: P) [] = levRec P [] + 1 := by
    rw [levRec_nil_right, levRec_nil_right]
    rfl
  show (levRec P [] + 1)
      :: levRowAux 1 1 1 ch w2 (levRec P [] :: rowFrom P [] w2)
        (levRec P [] + 1)
    = levRec (ch :: P) [] :: rowFrom (ch :: P) [] w2
  rw [← hl, levRowAux_spec]

theorem levLoop_spec (w2 : List Char) (w1 : List Char) :
    ∀ P, levLoop 1 1 1 w1 w2 (fullRow P w2) = fullRow (w1.reverse ++ P) w2 := by
  induction w1 with
  | nil => intro P; simp [levLoop]
  | cons ch w1 ih =>
    intro P
    have harg : w1.reverse ++ (ch :: P) = (ch :: w1).reverse ++ P := by
      simp
    rw [levLoop, levRow_spec, ih (ch :: P), harg]

theorem rowFrom_getD (P : List Char) (rest : List Char) :
    ∀ acc, (levRec P acc :: rowFrom P acc rest).getD rest.length 0
      = levRec P (rest.reverse ++ acc) := by
  induction rest with
  | nil => intro acc; rfl
  | cons c rest ih =>
    intro acc
    have harg : rest.reverse ++ (c :: acc) = (c :: rest).reverse ++ acc := by
      simp
    show (levRec P (c :: acc) :: rowFrom P (c :: acc) rest).getD rest.length 0
      = levRec P ((c :: rest).reverse ++ acc)
    rw [ih (c :: acc), harg]

theorem rowFrom_of_nil_left (rest : List Char) :
    ∀ acc, rowFrom [] acc rest = List.range' (acc.length + 1) rest.length := by
  induction rest with
  | nil => intro acc; rfl
  | cons c rest ih =>
    intro acc
    rw [rowFrom, ih (c :: acc), levRec_nil_left]
    show (c :: acc).length :: List.range' ((c :: acc).length + 1) rest.length
      = List.range' (acc.length + 1) (c :: rest).length
    rw [List.length_cons, List.length_cons, List.range'_succ]

theorem fullRow_nil_left (w2 : List Char) :
    fullRow [] w2 = (List.range (w2.length + 1)).map (· * 1) := by
  have hmap : ((List.range (w2.length + 1)).map (· * 1))
      = List.range (w2.length + 1) := by
    have : (fun x : Nat => x * 1) = id := funext (fun x => Nat.mul_one x)
    rw [this, List.map_id]
  rw [hmap, fullRow, rowFrom_of_nil_left, List.range_eq_range',
    levRec_nil_left, List.range'_succ]
  rfl

theorem levenshtein_eq_levRec (a b : String) :
    levenshtein a b 1 1 1 = levRec a.data.reverse b.data.reverse := by
  rw [levenshtein]
  by_cases hab : a = b
  · subst hab
    rw [if_pos rfl, levRec_self]
  · rw [if_neg hab]
    by_cases ha : a.data.length = 0
    · rw [if_pos ha, List.length_eq_zero.mp ha]
      simp [levRec_nil_left]
    · rw [if_neg ha]
      by_cases hb : b.data.length = 0
      · rw [if_pos hb, List.length_eq_zero.mp hb]
        simp [levRec_nil_right]
      · rw [if_neg hb]
        show (levLoop 1 1 1 a.data b.data
          ((List.range (b.data.length + 1)).map (· * 1))).getD
            b.data.length 0 = _
        rw [← fullRow_nil_left, levLoop_spec, List.append_nil, fullRow,
          rowFrom_getD, List.append_nil]

/- ---------------------------------------------------------------------- -/
/- Shape of the result list.                                               -/
/- ---------------------------------------------------------------------- -/

theorem rawResults_map_fst (s : Scorer) (q : String) :
    (rawResults s q).map Prod.fst = s.documents := by
  rw [rawResults, List.map_map]
  exact List.map_id _

theorem score_perm_rawResults (s : Scorer) (q : String) :
    List.Perm (score s q) (rawResults s q) :=
  sortLe_perm _ _

theorem score_map_fst_perm (s : Scorer) (q : String) :
    List.Perm ((score s q).map Prod.fst) s.documents := by
  rw [← rawResults_map_fst s q]
  exact (score_perm_rawResults s q).map Prod.fst

theorem score_sorted (s : Scorer) (q : String) :
    (score s q).Pairwise (fun a b => EDist.le a.2 b.2 = true) :=
  @sortLe_pairwise (Document × EDist) (fun a b => EDist.le a.2 b.2)
    (fun _ _ _ h1 h2 => EDist.le_trans h1 h2)
    (fun a b => EDist.le_total a.2 b.2) _

theorem mem_score_of_mem_documents {s : Scorer} {q : String} {d : Document}
    (hd : d ∈ s.documents) :
    (d, (finalSums s q d).getD EDist.inf) ∈ score s q :=
  (score_perm_rawResults s q).mem_iff.mpr
    (List.mem_map.mpr ⟨d, hd, rfl⟩)

/- ---------------------------------------------------------------------- -/
/- The score of an exactly matched keyword.                                -/
/- ---------------------------------------------------------------------- -/

theorem mem_words_normalized {t : Nat} {sw : List String}
    {docs : List Document} {d : Document} {k : String}
    (hd : d ∈ (buildScorer t sw docs).documents) (hk : k ∈ d.words) :
    lowerStr k = k := by
  rw [buildScorer_documents] at hd
  rcases List.mem_map.mp hd with ⟨d0, _, rfl⟩
  simp only [normDoc] at hk
  rcases List.mem_map.mp hk with ⟨w, _, rfl⟩
  exact lowerStr_lowerStr w

theorem keyDist_self (s : Scorer) (k : String) :
    keyDist s k k = EDist.fin 0 := by
  rw [keyDist]
  simp [levenshtein]

theorem finalSums_single_exact {s : Scorer} {d : Document} {k : String}
    (hd : d ∈ s.documents) (hk : k ∈ d.words) (hnorm : lowerStr k = k)
    (hws : ∀ c ∈ k.data, c.isWhitespace = false)
    (hstop : skipWord s 0 k = false) :
    finalSums s k d = some (EDist.fin 0) := by
  have hmin : minDistFor s true k d
      = some (minOver (d.words.map (keyDist s k))) :=
    minDistFor_first_eq hd (List.ne_nil_of_mem hk) k
  have hm0 : minOver (d.words.map (keyDist s k)) = EDist.fin 0 := by
    apply EDist.le_fin_zero
    have : EDist.fin 0 ∈ d.words.map (keyDist s k) :=
      List.mem_map.mpr ⟨k, hk, keyDist_self s k⟩
    exact minOver_le_mem this
  rw [finalSums, searchWords_eq_single hws, hnorm]
  show stepSums s 0 k (fun _ => none) d = some (EDist.fin 0)
  rw [stepSums, if_neg (by rw [hstop]; exact Bool.false_ne_true)]
  show (match minDistFor s true k d with
    | none => (fun (_ : Document) => (none : Option EDist)) d
    | some m => some (m.add (((fun (_ : Document) =>
        (none : Option EDist)) d).getD (EDist.fin 0)))) = some (EDist.fin 0)
  rw [hmin, hm0]
  rfl

theorem contains_iff_mem {l : List String} {w : String} :
    l.contains w = true ↔ w ∈ l := by
  simp

/- ---------------------------------------------------------------------- -/
/- The claims.                                                             -/
/- ---------------------------------------------------------------------- -/

/-- C7: the edit-distance routine returns `0` on identical strings, and when
an argument is the empty string it returns the other argument's length times
the corresponding unit cost (`costIns` when `word1` is empty, `costDel` when
`word2` is; with the default costs both products are the plain length). -/
theorem levenshtein_self_and_empty (s : String) (ci cr cd : Nat) :
    levenshtein s s ci cr cd = 0
    ∧ levenshtein "" s ci cr cd = s.length * ci
    ∧ levenshtein s "" ci cr cd = s.length * cd := by
  refine ⟨?_, ?_, ?_⟩
  · rw [levenshtein, if_pos rfl]
  · by_cases h : s = ""
    · subst h
      rw [levenshtein, if_pos rfl, show ("" : String).length = 0 from rfl,
        Nat.zero_mul]
    · rw [levenshtein, if_neg (fun he => h he.symm),
        if_pos (show ("" : String).data.length = 0 from rfl)]
      rfl
  · by_cases h : s = ""
    · subst h
      rw [levenshtein, if_pos rfl, show ("" : String).length = 0 from rfl,
        Nat.zero_mul]
    · have hd : ¬s.data.length = 0 := by
        intro h0
        exact h (String.ext (List.length_eq_zero.mp h0))
      rw [levenshtein, if_neg h, if_neg hd,
        if_pos (show ("" : String).data.length = 0 from rfl)]
      rfl

/-- C8: with the default unit costs the edit-distance routine is symmetric:
`levenshtein a b = levenshtein b a` for all strings `a`, `b`. -/
theorem levenshtein_comm (a b : String) :
    levenshtein a b 1 1 1 = levenshtein b a 1 1 1 := by
  rw [levenshtein_eq_levRec, levenshtein_eq_levRec, levRec_comm]

/-- C9: `score` performs no mutation of the scorer state and is
deterministic: a `score` call leaves the state exactly as it was, and two
successive calls with the same query return the same result list. -/
theorem score_stateless_deterministic (s : Scorer) (q : String) :
    (step s (Op.query q)).1 = s
    ∧ (step s (Op.query q)).2 = some (score s q)
    ∧ (step (step s (Op.query q)).1 (Op.query q)).2
        = (step s (Op.query q)).2 :=
  ⟨rfl, rfl, rfl⟩

/-- C10: `addDocument` visibly rewrites the caller's document: afterwards its
`words` field is the lowercased image of the original words, its id is
unchanged, and the stored document is that same updated object. -/
theorem addDocument_rewrites_words (s : Scorer) (doc : Document) :
    (addDocument s doc).2.words = doc.words.map lowerStr
    ∧ (addDocument s doc).2.id = doc.id
    ∧ (addDocument s doc).1.documents.getLast? = some (addDocument s doc).2 := by
  refine ⟨rfl, rfl, ?_⟩
  show (s.documents ++ [normDoc doc]).getLast? = some (normDoc doc)
  exact List.getLast?_concat _

/-- C4: a key whose edit distance from the query word strictly exceeds
`distanceThreshold` contributes `Infinity` (nothing finite) to any per-word
minimum, yet no document is removed from the returned list on that account:
every registered document still appears in `score`'s output. -/
theorem threshold_cap_no_exclusion (s : Scorer) (w k q : String)
    (d : Document) :
    (s.distanceThreshold < levenshtein w k 1 1 1
        → keyDist s w k = EDist.inf)
    ∧ (d ∈ s.documents → d ∈ (score s q).map Prod.fst) := by
  constructor
  · intro h
    rw [keyDist, if_pos h]
  · intro hd
    exact (score_map_fst_perm s q).mem_iff.mpr hd

/-- Witness for C4 at a concrete corpus: the distance from "xyz" to "apple"
exceeds the threshold 1, the key contributes `Infinity`, and the document
still appears in the result. -/
theorem threshold_cap_no_exclusion_w :
    keyDist (buildScorer 1 [] [⟨"d", ["apple"]⟩]) "xyz" "apple" = EDist.inf
    ∧ (⟨"d", ["apple"]⟩ : Document)
        ∈ (score (buildScorer 1 [] [⟨"d", ["apple"]⟩]) "xyz").map Prod.fst :=
  ⟨(threshold_cap_no_exclusion (buildScorer 1 [] [⟨"d", ["apple"]⟩])
      "xyz" "apple" "xyz" ⟨"d", ["apple"]⟩).1 (by decide),
    (threshold_cap_no_exclusion (buildScorer 1 [] [⟨"d", ["apple"]⟩])
      "xyz" "apple" "xyz" ⟨"d", ["apple"]⟩).2 (by decide)⟩

/-- C3: the query word at position 0 is skipped iff it equals a lowercased
configured stop word exactly; a word at any later position is skipped iff it
equals some prefix (length 1 to full) of some lowercased stop word; and a
skipped word contributes nothing to any document's running sum. -/
theorem stop_word_skip_rule (t : Nat) (sw : List String)
    (docs : List Document) (w : String) (i : Nat)
    (sums : Document → Option EDist) :
    (skipWord (buildScorer t sw docs) 0 w = true ↔ ∃ v ∈ sw, w = lowerStr v)
    ∧ (1 ≤ i → (skipWord (buildScorer t sw docs) i w = true
        ↔ ∃ v ∈ sw, ∃ j, 1 ≤ j ∧ j ≤ (lowerStr v).length
            ∧ w = strTake (lowerStr v) j))
    ∧ (skipWord (buildScorer t sw docs) i w = true
        → stepSums (buildScorer t sw docs) i w sums = sums) := by
  refine ⟨?_, ?_, ?_⟩
  · rw [skipWord, if_pos rfl, contains_iff_mem, buildScorer_stopWords]
    simp only [List.mem_map]
    constructor
    · rintro ⟨v, hv, rfl⟩
      exact ⟨v, hv, rfl⟩
    · rintro ⟨v, hv, rfl⟩
      exact ⟨v, hv, rfl⟩
  · intro hi
    rw [skipWord, if_neg (by omega), contains_iff_mem,
      buildScorer_stopWordPrefixes]
    simp only [List.mem_flatten, List.mem_map]
    constructor
    · rintro ⟨ps, ⟨v', ⟨v, hv, rfl⟩, rfl⟩, hw⟩
      rcases mem_prefixesOf.mp hw with ⟨j, hj1, hj2, rfl⟩
      exact ⟨v, hv, j, hj1, hj2, rfl⟩
    · rintro ⟨v, hv, j, hj1, hj2, rfl⟩
      refine ⟨prefixesOf (lowerStr v), ⟨lowerStr v, ⟨v, hv, rfl⟩, rfl⟩, ?_⟩
      exact mem_prefixesOf.mpr ⟨j, hj1, hj2, rfl⟩
  · intro h
    rw [stepSums, if_pos h]

/-- Witness for C3: with stop word "Stop", the first-position word "stop" is
skipped, the later-position word "st" (a prefix of "stop") is skipped, and a
skipped word leaves the sums unchanged. -/
theorem stop_word_skip_rule_w :
    skipWord (buildScorer 1 ["Stop"] []) 0 "stop" = true
    ∧ (skipWord (buildScorer 1 ["Stop"] []) 1 "st" = true
        ↔ ∃ v ∈ ["Stop"], ∃ j, 1 ≤ j ∧ j ≤ (lowerStr v).length
            ∧ "st" = strTake (lowerStr v) j)
    ∧ stepSums (buildScorer 1 ["Stop"] []) 0 "stop" (fun _ => none)
        = (fun _ => none) :=
  ⟨(stop_word_skip_rule 1 ["Stop"] [] "stop" 0 (fun _ => none)).1.mpr
      ⟨"Stop", by decide, by decide⟩,
    (stop_word_skip_rule 1 ["Stop"] [] "st" 1 (fun _ => none)).2.1
      (by decide),
    (stop_word_skip_rule 1 ["Stop"] [] "stop" 0 (fun _ => none)).2.2
      (by decide)⟩

/-- C2: the per-document minimum for the word at position 0 draws on exactly
the keys of the exact-keyword index whose bucket holds the document, later
words on exactly the keys of the keyword-prefix index, and the two key sets
are characterized: the exact-keyword keys are the normalized keywords of the
added documents, and the keyword-prefix keys are precisely the prefixes of
length 1 up to full length of every normalized keyword of every added
document. -/
theorem index_key_structure (t : Nat) (sw : List String)
    (docs : List Document) (k : String) (d : Document) :
    (k ∈ exactKeys (buildScorer t sw docs)
      ↔ ∃ d0 ∈ docs, ∃ w ∈ d0.words, k = lowerStr w)
    ∧ (k ∈ prefixKeys (buildScorer t sw docs)
      ↔ ∃ d0 ∈ docs, ∃ w ∈ d0.words, ∃ i, 1 ≤ i ∧ i ≤ (lowerStr w).length
          ∧ k = strTake (lowerStr w) i)
    ∧ (k ∈ bucketKeys (buildScorer t sw docs) true d
        ↔ k ∈ exactKeys (buildScorer t sw docs) ∧ k ∈ d.words)
    ∧ (k ∈ bucketKeys (buildScorer t sw docs) false d
        ↔ k ∈ prefixKeys (buildScorer t sw docs)
            ∧ ∃ w ∈ d.words, k ∈ prefixesOf w) := by
  refine ⟨?_, ?_, mem_bucketKeys_first, mem_bucketKeys_later⟩
  · rw [mem_exactKeys, buildScorer_documents]
    constructor
    · rintro ⟨d', hd', hk⟩
      rcases List.mem_map.mp hd' with ⟨d0, hd0, rfl⟩
      simp only [normDoc] at hk
      rcases List.mem_map.mp hk with ⟨w, hw, rfl⟩
      exact ⟨d0, hd0, w, hw, rfl⟩
    · rintro ⟨d0, hd0, w, hw, rfl⟩
      exact ⟨normDoc d0, List.mem_map.mpr ⟨d0, hd0, rfl⟩,
        List.mem_map.mpr ⟨w, hw, rfl⟩⟩
  · rw [mem_prefixKeys, buildScorer_documents]
    constructor
    · rintro ⟨d', hd', w', hw', hk⟩
      rcases List.mem_map.mp hd' with ⟨d0, hd0, rfl⟩
      simp only [normDoc] at hw'
      rcases List.mem_map.mp hw' with ⟨w, hw, rfl⟩
      rcases mem_prefixesOf.mp hk with ⟨i, h1, h2, rfl⟩
      exact ⟨d0, hd0, w, hw, i, h1, h2, rfl⟩
    · rintro ⟨d0, hd0, w, hw, i, h1, h2, rfl⟩
      exact ⟨normDoc d0, List.mem_map.mpr ⟨d0, hd0, rfl⟩, lowerStr w,
        List.mem_map.mpr ⟨w, hw, rfl⟩, mem_prefixesOf.mpr ⟨i, h1, h2, rfl⟩⟩

/-- C6: under normal input no scorer operation raises: a string query always
yields a ranking, an empty corpus yields the empty ranking, every query
(including the empty one) yields one entry per registered document, and
duplicate document ids are accepted; a null, undefined or numeric query
fails fast with the invalid-argument error. -/
theorem no_raise_and_invalid_argument (s : Scorer) (q : String) (v : JSVal)
    (t : Nat) (sw : List String) (d1 d2 : Document) :
    scoreJS s (JSVal.str q) = Except.ok (score s q)
    ∧ ((v = JSVal.null ∨ v = JSVal.undef ∨ ∃ n, v = JSVal.num n)
        → scoreJS s v = Except.error JSError.invalidArgument)
    ∧ (s.documents = [] → score s q = [])
    ∧ (score s q).length = s.documents.length
    ∧ (d1.id = d2.id → (score (buildScorer t sw [d1, d2]) q).length = 2) := by
  refine ⟨rfl, ?_, ?_, ?_, ?_⟩
  · rintro (rfl | rfl | ⟨n, rfl⟩) <;> rfl
  · intro h
    rw [score, rawResults, h]
    rfl
  · rw [(score_perm_rawResults s q).length_eq, rawResults, List.length_map]
  · intro _
    rw [(score_perm_rawResults (buildScorer t sw [d1, d2]) q).length_eq,
      rawResults, List.length_map, buildScorer_documents]
    rfl

/-- Witness for C6: a null query errors, an empty corpus yields the empty
ranking, and two documents with the same id both appear. -/
theorem no_raise_and_invalid_argument_w :
    scoreJS (mkScorer 1 []) JSVal.null = Except.error JSError.invalidArgument
    ∧ score (mkScorer 1 []) "x" = []
    ∧ (score (buildScorer 1 [] [⟨"a", ["w"]⟩, ⟨"a", ["y"]⟩]) "q").length
        = 2 :=
  ⟨(no_raise_and_invalid_argument (mkScorer 1 []) "x" JSVal.null 1 []
      ⟨"a", ["w"]⟩ ⟨"a", ["y"]⟩).2.1 (Or.inl rfl),
    (no_raise_and_invalid_argument (mkScorer 1 []) "x" JSVal.null 1 []
      ⟨"a", ["w"]⟩ ⟨"a", ["y"]⟩).2.2.1 rfl,
    (no_raise_and_invalid_argument (mkScorer 1 []) "q" JSVal.null 1 []
      ⟨"a", ["w"]⟩ ⟨"a", ["y"]⟩).2.2.2.2 rfl⟩

/-- C1: for every corpus and query, `score` returns exactly one entry per
registered document (its first components are a permutation of the corpus,
none dropped, none duplicated), ordered ascending by score; a document with
no recorded sum appears with the `Infinity` sentinel, and an `Infinity`
entry is never followed by a finite one, so unmatched documents sort after
every finite-scored document. -/
theorem score_covers_corpus_sorted (s : Scorer) (q : String) :
    List.Perm ((score s q).map Prod.fst) s.documents
    ∧ (score s q).Pairwise (fun a b => EDist.le a.2 b.2 = true)
    ∧ (∀ d ∈ s.documents, finalSums s q d = none
        → (d, EDist.inf) ∈ score s q)
    ∧ (∀ (i j : Fin (score s q).length), i.val < j.val
        → ((score s q).get i).2 = EDist.inf
        → ((score s q).get j).2 = EDist.inf) := by
  refine ⟨score_map_fst_perm s q, score_sorted s q, ?_, ?_⟩
  · intro d hd hnone
    have h := mem_score_of_mem_documents (q := q) hd
    rw [hnone] at h
    exact h
  · intro i j hij hi
    have hp := List.pairwise_iff_get.mp (score_sorted s q) i j hij
    rw [hi] at hp
    exact EDist.inf_le_iff.mp hp

/-- Witness for C1: on a two-document corpus with a stop word, the document
with no keywords appears with the sentinel score, and when every sum is
unrecorded (the query is the stop word) the later entry is also infinite. -/
theorem score_covers_corpus_sorted_w :
    ((⟨"b", []⟩ : Document), EDist.inf)
        ∈ score (buildScorer 1 ["stop"] [⟨"a", ["x"]⟩, ⟨"b", []⟩]) "x"
    ∧ ((score (buildScorer 1 ["stop"] [⟨"a", ["x"]⟩, ⟨"b", []⟩]) "stop").get
        ⟨1, by decide⟩).2 = EDist.inf :=
  ⟨(score_covers_corpus_sorted
        (buildScorer 1 ["stop"] [⟨"a", ["x"]⟩, ⟨"b", []⟩]) "x").2.2.1
      ⟨"b", []⟩ (by decide) (by decide),
    (score_covers_corpus_sorted
        (buildScorer 1 ["stop"] [⟨"a", ["x"]⟩, ⟨"b", []⟩]) "stop").2.2.2
      ⟨0, by decide⟩ ⟨1, by decide⟩ (by decide) (by decide)⟩

/-- Counterexample to C5 as stated: with stop word "apple", the query
"apple" — one of the document's own keywords — is skipped as a stop word,
so the document scores `Infinity`, not 0. -/
theorem exact_keyword_scores_zero_cex :
    score (buildScorer 1 ["apple"] [⟨"d", ["apple"]⟩]) "apple"
      = [(⟨"d", ["apple"]⟩, EDist.inf)]
    ∧ ¬(((⟨"d", ["apple"]⟩ : Document), EDist.fin 0)
        ∈ score (buildScorer 1 ["apple"] [⟨"d", ["apple"]⟩]) "apple") := by
  constructor
  · decide
  · decide

/-- C5 (amended): for every document `d` of the corpus and stored keyword
`k` of `d` (the empty keyword included) such that `k` contains no whitespace
and is not skipped as a stop word, scoring the query `k` yields `d` with
score 0; when `d` is the sole document the result is exactly `[(d, 0)]`,
and whenever every other document is less similar (scores other than 0),
`d` is ranked first. -/
theorem exact_keyword_scores_zero (t : Nat) (sw : List String)
    (docs : List Document) (d : Document) (k : String)
    (hd : d ∈ (buildScorer t sw docs).documents) (hk : k ∈ d.words)
    (hws : ∀ c ∈ k.data, c.isWhitespace = false)
    (hstop : skipWord (buildScorer t sw docs) 0 k = false) :
    (d, EDist.fin 0) ∈ score (buildScorer t sw docs) k
    ∧ ((buildScorer t sw docs).documents = [d]
        → score (buildScorer t sw docs) k = [(d, EDist.fin 0)])
    ∧ ((∀ e ∈ score (buildScorer t sw docs) k, e.1 ≠ d → e.2 ≠ EDist.fin 0)
        → (score (buildScorer t sw docs) k).head?
            = some (d, EDist.fin 0)) := by
  have hnorm := mem_words_normalized hd hk
  have hsum := finalSums_single_exact hd hk hnorm hws hstop
  have hmem : (d, EDist.fin 0) ∈ score (buildScorer t sw docs) k := by
    have h := mem_score_of_mem_documents (q := k) hd
    rw [hsum] at h
    exact h
  refine ⟨hmem, ?_, ?_⟩
  · intro hone
    rw [score, rawResults, hone, List.map_cons, List.map_nil, hsum]
    rfl
  · intro hothers
    rcases hr : score (buildScorer t sw docs) k with _ | ⟨e, rest⟩
    · rw [hr] at hmem
      cases hmem
    · rw [hr] at hmem
      have hpw := score_sorted (buildScorer t sw docs) k
      rw [hr] at hpw
      have he2 : e.2 = EDist.fin 0 := by
        rcases List.mem_cons.mp hmem with heq | hmem'
        · rw [← heq]
        · exact EDist.le_fin_zero
            ((List.pairwise_cons.mp hpw).1 (d, EDist.fin 0) hmem')
      have he1 : e.1 = d := by
        by_contra hne1
        exact hothers e (by rw [hr]; exact List.mem_cons_self e rest)
          hne1 he2
      show some e = some (d, EDist.fin 0)
      rw [← he1, ← he2]

/-- Witness for C5 (amended): a document with keyword "apple" scores 0 on
the query "apple" and is ranked first ahead of a less similar document; a
document whose stored keyword is the empty string scores 0 on the empty
query and is the whole result list. -/
theorem exact_keyword_scores_zero_w :
    ((⟨"d", ["apple"]⟩ : Document), EDist.fin 0)
        ∈ score (buildScorer 1 [] [⟨"d", ["apple"]⟩, ⟨"e", ["zzzz"]⟩])
          "apple"
    ∧ score (buildScorer 1 [] [⟨"d", [""]⟩]) ""
        = [(⟨"d", [""]⟩, EDist.fin 0)]
    ∧ (score (buildScorer 1 [] [⟨"d", ["apple"]⟩, ⟨"e", ["zzzz"]⟩])
        "apple").head? = some (⟨"d", ["apple"]⟩, EDist.fin 0) :=
  ⟨(exact_keyword_scores_zero 1 [] [⟨"d", ["apple"]⟩, ⟨"e", ["zzzz"]⟩]
      ⟨"d", ["apple"]⟩ "apple" (by decide) (by decide) (by decide)
      (by decide)).1,
    (exact_keyword_scores_zero 1 [] [⟨"d", [""]⟩] ⟨"d", [""]⟩ ""
      (by decide) (by decide) (by decide) (by decide)).2.1 (by decide),
    (exact_keyword_scores_zero 1 [] [⟨"d", ["apple"]⟩, ⟨"e", ["zzzz"]⟩]
      ⟨"d", ["apple"]⟩ "apple" (by decide) (by decide) (by decide)
      (by decide)).2.2 (by decide)⟩

end QS
